import Mathlib

/-! Verification development for the vanity-address grinder server
(`src/server.rs` of Stack-Labs/vanity-generator).

The Rust source is shallowly embedded as executable Lean functions:

* bytes are `Nat` values (with `< 256` stated as hypotheses where relevant),
  byte strings are `List Nat`, text is `List Char`;
* the incremental SHA-256 hashing of the `sha2` crate (`Sha256::new`,
  `chain_update`, `finalize`) is modelled by a context structure holding the
  eight 32-bit working words, the unprocessed buffer and the total length fed,
  exactly as the streaming implementation does; `sha256` is the one-shot hash;
* `fd_bs58::encode_32` is modelled by the standard big-endian
  number-to-base58 conversion (its documented behaviour), and the `bs58`
  crate encoder behind `Pubkey`'s `to_string` is modelled by that crate's
  byte-by-byte carry-propagation algorithm, so that their agreement is a
  real theorem;
* `rand`'s `Alphanumeric` distribution is modelled by an oracle stream
  `idx : Nat → Nat` of already rejection-sampled indices (`idx n < 62`),
  position `k` of trial `i` consuming stream element `16 * i + k`;
* the unbounded `while !found` loop of `grind_with_result` is modelled with
  an explicit fuel parameter: `none` means "no match found within `fuel`
  trials, the loop is still running".
-/

/-- Arithmetic modulus for 32-bit words. -/
def M32 : Nat := 4294967296

/-- Right rotation of a 32-bit word. -/
def rotr32 (n x : Nat) : Nat := ((x >>> n) ||| (x <<< (32 - n))) % M32

/-- SHA-256 big sigma-0 function. -/
def bigSigma0 (x : Nat) : Nat := rotr32 2 x ^^^ rotr32 13 x ^^^ rotr32 22 x

/-- SHA-256 big sigma-1 function. -/
def bigSigma1 (x : Nat) : Nat := rotr32 6 x ^^^ rotr32 11 x ^^^ rotr32 25 x

/-- SHA-256 small sigma-0 function. -/
def smallSigma0 (x : Nat) : Nat := rotr32 7 x ^^^ rotr32 18 x ^^^ (x >>> 3)

/-- SHA-256 small sigma-1 function. -/
def smallSigma1 (x : Nat) : Nat := rotr32 17 x ^^^ rotr32 19 x ^^^ (x >>> 10)

/-- SHA-256 choice function (the complement is taken within 32 bits). -/
def chFn (x y z : Nat) : Nat := (x &&& y) ^^^ ((x ^^^ 4294967295) &&& z)

/-- SHA-256 majority function. -/
def majFn (x y z : Nat) : Nat := (x &&& y) ^^^ (x &&& z) ^^^ (y &&& z)

/-- The 64 SHA-256 round constants. -/
def SHA_K : List Nat := [
  1116352408, 1899447441, 3049323471, 3921009573, 961987163, 1508970993,
  2453635748, 2870763221, 3624381080, 310598401, 607225278, 1426881987,
  1925078388, 2162078206, 2614888103, 3248222580, 3835390401, 4022224774,
  264347078, 604807628, 770255983, 1249150122, 1555081692, 1996064986,
  2554220882, 2821834349, 2952996808, 3210313671, 3336571891, 3584528711,
  113926993, 338241895, 666307205, 773529912, 1294757372, 1396182291,
  1695183700, 1986661051, 2177026350, 2456956037, 2730485921, 2820302411,
  3259730800, 3345764771, 3516065817, 3600352804, 4094571909, 275423344,
  430227734, 506948616, 659060556, 883997877, 958139571, 1322822218,
  1537002063, 1747873779, 1955562222, 2024104815, 2227730452, 2361852424,
  2428436474, 2756734187, 3204031479, 3329325298]

/-- The SHA-256 initial hash state. -/
def SHA_H0 : List Nat := [
  1779033703, 3144134277, 1013904242, 2773480762,
  1359893119, 2600822924, 528734635, 1541459225]

/-- Group a byte list into big-endian 32-bit words (leftover bytes dropped;
blocks fed to the compressor always hold exactly 64 bytes). -/
def bytesToWordsBE : List Nat → List Nat
  | a :: b :: c :: d :: rest => (((a * 256 + b) * 256 + c) * 256 + d) :: bytesToWordsBE rest
  | _ => []

/-- Extend the 16-word message block by `n` further schedule words. -/
def scheduleExt (w : List Nat) : Nat → List Nat
  | 0 => w
  | n + 1 =>
    let v := scheduleExt w n
    v ++ [(smallSigma1 (v.getD (v.length - 2) 0) + v.getD (v.length - 7) 0 +
           smallSigma0 (v.getD (v.length - 15) 0) + v.getD (v.length - 16) 0) % M32]

/-- One SHA-256 round applied to the eight working variables. -/
def roundFn (s : List Nat) (kw : Nat × Nat) : List Nat :=
  match s with
  | [a, b, c, d, e, f, g, hh] =>
    let t1 := (hh + bigSigma1 e + chFn e f g + kw.1 + kw.2) % M32
    let t2 := (bigSigma0 a + majFn a b c) % M32
    [(t1 + t2) % M32, a, b, c, (d + t1) % M32, e, f, g]
  | _ => s

/-- The SHA-256 compression function on one 64-byte block. -/
def sha256compress (h : List Nat) (block : List Nat) : List Nat :=
  let w := scheduleExt (bytesToWordsBE block) 48
  let s := (SHA_K.zip w).foldl roundFn h
  (h.zip s).map (fun p => (p.1 + p.2) % M32)

/-- Compress every complete 64-byte block of `buf`, fuelled so that the
definition is structurally recursive (fuel at least `buf.length` suffices). -/
def processBlocksF : Nat → List Nat → List Nat → List Nat × List Nat
  | 0, h, buf => (h, buf)
  | fuel + 1, h, buf =>
    if 64 ≤ buf.length then
      processBlocksF fuel (sha256compress h (buf.take 64)) (buf.drop 64)
    else (h, buf)

/-- Compress every complete 64-byte block of `buf`, returning the new hash
state and the remaining (shorter than 64 bytes) buffer. -/
def processBlocks (h buf : List Nat) : List Nat × List Nat := processBlocksF buf.length h buf

/-- Incremental SHA-256 context, as kept by the `sha2` crate: current hash
state, buffered not-yet-compressed bytes, and total byte count fed so far. -/
structure Sha256 where
  h : List Nat
  buf : List Nat
  len : Nat
deriving DecidableEq

/-- Sha256::new(): the fresh hash context. -/
def Sha256.new : Sha256 := ⟨SHA_H0, [], 0⟩

/-- Digest::chain_update: feed bytes into the context, compressing every
complete 64-byte block. Pure: the original context value is untouched, which
is what cloning the primed context achieves in the Rust source. -/
def Sha256.chain_update (c : Sha256) (data : List Nat) : Sha256 :=
  let p := processBlocks c.h (c.buf ++ data)
  ⟨p.1, p.2, c.len + data.length⟩

/-- Number of zero bytes in the SHA-256 final padding. -/
def padZeros (bl : Nat) : Nat :=
  if bl % 64 ≤ 55 then 55 - bl % 64 else 119 - bl % 64

/-- The 8-byte big-endian encoding of the message bit length. -/
def lenBE8 (n : Nat) : List Nat :=
  [n / 72057594037927936 % 256, n / 281474976710656 % 256, n / 1099511627776 % 256,
   n / 4294967296 % 256, n / 16777216 % 256, n / 65536 % 256, n / 256 % 256, n % 256]

/-- Serialize 32-bit words to big-endian bytes. -/
def wordsToBytesBE : List Nat → List Nat
  | [] => []
  | w :: ws => w / 16777216 % 256 :: w / 65536 % 256 :: w / 256 % 256 :: w % 256 :: wordsToBytesBE ws

/-- Digest::finalize: pad (0x80, zeros, 64-bit big-endian bit length),
compress the final block(s) and serialize the state to the 32-byte digest. -/
def Sha256.finalize (c : Sha256) : List Nat :=
  let pad := 128 :: List.replicate (padZeros c.buf.length) 0 ++ lenBE8 (c.len * 8)
  let p := processBlocks c.h (c.buf ++ pad)
  wordsToBytesBE p.1

/-- One-shot SHA-256 of a byte string, computed from scratch. -/
def sha256 (msg : List Nat) : List Nat := (Sha256.new.chain_update msg).finalize

/-- The base58 alphabet (Bitcoin variant, used by both `fd_bs58` and `bs58`). -/
def B58_ALPHABET : List Char := "123456789ABCDEFGHJKLMNPQRSTUVWXYZabcdefghijkmnopqrstuvwxyz".toList

/-- Little-endian base-58 digit extraction by repeated division, fuelled so
that the definition is structurally recursive (fuel at least `n` suffices). -/
def natB58DigitsF : Nat → Nat → List Nat
  | 0, _ => []
  | fuel + 1, n => if n = 0 then [] else n % 58 :: natB58DigitsF fuel (n / 58)

/-- Little-endian base-58 digits of `n` (empty for `0`). -/
def natB58Digits (n : Nat) : List Nat := natB58DigitsF n n

/-- Count of leading zero bytes, each of which base58 encodes as `'1'`. -/
def leadingZeroBytes : List Nat → Nat
  | [] => 0
  | b :: r => if b = 0 then leadingZeroBytes r + 1 else 0

/-- Big-endian interpretation of a byte string as a natural number. -/
def bytesBEToNat (l : List Nat) : Nat := l.foldl (fun acc b => acc * 256 + b) 0

/-- Model of `fd_bs58::encode_32`: standard base58 of a 32-byte array, one
`'1'` per leading zero byte followed by the base-58 digits of the big-endian
value, most significant first. -/
def encode_32 (b : List Nat) : List Char :=
  List.replicate (leadingZeroBytes b) '1' ++
    ((natB58Digits (bytesBEToNat b)).map (fun d => B58_ALPHABET.getD d '1')).reverse

/-- Inner loop of the `bs58` crate encoder: push one input byte through the
little-endian digit accumulator, returning updated digits and final carry. -/
def carryProp : List Nat → Nat → List Nat × Nat
  | [], c => ([], c)
  | d :: ds, c =>
    let c2 := c + d * 256
    let r := carryProp ds (c2 / 58)
    (c2 % 58 :: r.1, r.2)

/-- One step of the `bs58` crate encoder: carry-propagate byte `b` through the
existing digits, then append the remaining carry as new digits (the
`while carry > 0` loop is digit extraction by repeated division). -/
def pushDigits (ds : List Nat) (b : Nat) : List Nat :=
  let r := carryProp ds b
  r.1 ++ natB58Digits r.2

/-- Little-endian digit accumulator of the `bs58` crate encoder after
processing the whole input. -/
def bs58Digits (input : List Nat) : List Nat := input.foldl pushDigits []

/-- Model of the `bs58` crate encoder used by `Pubkey`'s Display: the carry
digits plus one zero digit per leading zero byte, reversed through the
alphabet. -/
def bs58encode (input : List Nat) : List Char :=
  ((bs58Digits input ++ List.replicate (leadingZeroBytes input) 0).map
    (fun d => B58_ALPHABET.getD d '1')).reverse

/-- Base58 string to number; `none` on a character outside the alphabet. -/
def foldB58Nat (s : List Char) : Option Nat :=
  s.foldl (fun acc c => acc.bind (fun n => (B58_ALPHABET.indexOf? c).map (fun i => n * 58 + i)))
    (some 0)

/-- Little-endian base-256 digit extraction, fuelled for structural
recursion (fuel at least `n` suffices). -/
def natToBytesLEF : Nat → Nat → List Nat
  | 0, _ => []
  | fuel + 1, n => if n = 0 then [] else n % 256 :: natToBytesLEF fuel (n / 256)

/-- Little-endian base-256 digits of `n`. -/
def natToBytesLE (n : Nat) : List Nat := natToBytesLEF n n

/-- Count of leading `'1'` characters, each of which decodes to a zero byte. -/
def leadingOneChars : List Char → Nat
  | [] => 0
  | c :: r => if c = '1' then leadingOneChars r + 1 else 0

/-- Model of `bs58` decoding: fails on an invalid character, otherwise yields
one zero byte per leading `'1'` followed by the big-endian bytes of the
number the string denotes. -/
def bs58decodeBytes (s : List Char) : Option (List Nat) :=
  (foldB58Nat s).map (fun n => List.replicate (leadingOneChars s) 0 ++ (natToBytesLE n).reverse)

/-- Model of `solana_sdk`'s `Pubkey::try_from(&str)`: reject oversized input,
base58-decode, and require exactly 32 bytes. -/
def pubkeyTryFrom (s : List Char) : Option (List Nat) :=
  if s.length > 44 then none
  else match bs58decodeBytes s with
    | none => none
    | some b => if b.length = 32 then some b else none

/-- Rust's `char::to_ascii_lowercase`: shift `'A'`-`'Z'` down into
`'a'`-`'z'`, leave everything else unchanged. -/
def toAsciiLowerChar (c : Char) : Char :=
  if 65 ≤ c.toNat ∧ c.toNat ≤ 90 then Char.ofNat (c.toNat + 32) else c

/-- Rust's `str::to_ascii_lowercase` on the character list of a string. -/
def toAsciiLower (s : List Char) : List Char := s.map toAsciiLowerChar

/-- The match test of `grind_with_result` (server.rs lines 76-85): fold the
candidate text when case-insensitive, then require the prefix AND the
suffix (Rust `starts_with`/`ends_with` on the possibly folded text). -/
def matchesCheck (pubkey p s : List Char) (ci : Bool) : Bool :=
  let check := if ci then toAsciiLower pubkey else pubkey
  p.isPrefixOf check && s.isSuffixOf check

/-- Modelled from the spec: the `GrindArgs` record lives in the crate root,
which is not part of the provided sources; the spec's GrindRequest gives its
shape `{base, owner, prefix, suffix, case_insensitive}` plus the unused
`logfile` and worker-count fields the server fills with `None` and `0`.
The pattern fields are named `pfx`/`sfx` because their Rust names are
reserved words in Lean. -/
structure GrindArgs where
  base : List Nat
  owner : List Nat
  pfx : Option (List Char)
  sfx : Option (List Char)
  case_insensitive : Bool
  logfile : Option (List Char)
  num_cpus : Nat

/-- A Solana public key: 32 raw bytes. -/
structure Pubkey where
  bytes : List Nat
deriving DecidableEq

/-- Pubkey::new_from_array. -/
def Pubkey.new_from_array (b : List Nat) : Pubkey := ⟨b⟩

/-- Pubkey's Display / `to_string`: `bs58` encoding of the raw bytes. -/
def Pubkey.to_string (p : Pubkey) : List Char := bs58encode p.bytes

/-- The byte charset of `rand::distributions::Alphanumeric`:
uppercase, lowercase, digits — 62 bytes. -/
def ALNUM_BYTES : List Nat :=
  ("ABCDEFGHIJKLMNOPQRSTUVWXYZabcdefghijklmnopqrstuvwxyz0123456789".toList).map Char.toNat

/-- Sampling map of the `Alphanumeric` distribution: a rejection-sampled
index below 62 picks the corresponding charset byte. -/
def sampleAlphanumeric (r : Nat) : Nat := ALNUM_BYTES.getD r 65

/-- The 16-byte seed drawn at trial `i` (server.rs lines 66-67): sixteen
consecutive elements of the index oracle stream, one per position. -/
def sampleSeed (idx : Nat → Nat) (i : Nat) : List Nat :=
  (List.range 16).map (fun k => sampleAlphanumeric (idx (16 * i + k)))

/-- The candidate key bytes of one trial (server.rs lines 58 and 70-74):
clone the context primed with `base`, extend with the seed then the owner,
and finalize. -/
def trialDigest (args : GrindArgs) (seed : List Nat) : List Nat :=
  (((Sha256.new.chain_update args.base).chain_update seed).chain_update args.owner).finalize

/-- One trial of the grind loop body (server.rs lines 66-88): derive the
candidate, base58-encode it, and test the match; `some` carries the data the
loop would store into `seed`/`address` before exiting. -/
def grindStep (args : GrindArgs) (seed : List Nat) : Option (List Nat × Pubkey) :=
  let pubkey_bytes := trialDigest args seed
  let pubkey := encode_32 pubkey_bytes
  if matchesCheck pubkey (args.pfx.getD []) (args.sfx.getD []) args.case_insensitive
  then some (seed, Pubkey.new_from_array pubkey_bytes) else none

/-- The `while !found` loop from trial `i` on, with `fuel` remaining trials;
`none` means the loop is still running after `fuel` trials. -/
def grindLoop (args : GrindArgs) (idx : Nat → Nat) : Nat → Nat → Option (List Nat × Pubkey)
  | _, 0 => none
  | i, fuel + 1 =>
    match grindStep args (sampleSeed idx i) with
    | some r => some r
    | none => grindLoop args idx (i + 1) fuel

/-- grind_with_result (server.rs lines 51-98), observed through a fuel
bound on the unbounded retry loop: the first matching trial's seed bytes and
candidate key, or `none` when no trial within `fuel` matched. -/
def grind_with_result (args : GrindArgs) (idx : Nat → Nat) (fuel : Nat) :
    Option (List Nat × Pubkey) :=
  grindLoop args idx 0 fuel

/-- One UTF-8 sequence step (`std::str::from_utf8` validity rules): given a
lead byte and the following bytes, return the decoded code point and the
remaining input, rejecting stray continuation bytes, overlong forms,
surrogates and out-of-range code points. -/
def utf8Step (b : Nat) (rest : List Nat) : Option (Nat × List Nat) :=
  if b < 128 then some (b, rest)
  else if b < 194 then none
  else if b < 224 then
    match rest with
    | c1 :: r =>
      if 128 ≤ c1 ∧ c1 < 192 then some ((b - 192) * 64 + (c1 - 128), r) else none
    | _ => none
  else if b < 240 then
    match rest with
    | c1 :: c2 :: r =>
      if (128 ≤ c1 ∧ c1 < 192) ∧ (128 ≤ c2 ∧ c2 < 192) then
        let cp := (b - 224) * 4096 + (c1 - 128) * 64 + (c2 - 128)
        if 2048 ≤ cp ∧ (cp < 55296 ∨ 57343 < cp) then some (cp, r) else none
      else none
    | _ => none
  else if b < 245 then
    match rest with
    | c1 :: c2 :: c3 :: r =>
      if (128 ≤ c1 ∧ c1 < 192) ∧ (128 ≤ c2 ∧ c2 < 192) ∧ (128 ≤ c3 ∧ c3 < 192) then
        let cp := (b - 240) * 262144 + (c1 - 128) * 4096 + (c2 - 128) * 64 + (c3 - 128)
        if 65536 ≤ cp ∧ cp ≤ 1114111 then some (cp, r) else none
      else none
    | _ => none
  else none

/-- Fuelled UTF-8 decoding loop; fuel equal to the input length always
suffices since each step consumes at least the lead byte. -/
def utf8DecodeF : Nat → List Nat → Option (List Char)
  | _, [] => some []
  | 0, _ :: _ => none
  | fuel + 1, b :: rest =>
    match utf8Step b rest with
    | none => none
    | some (cp, r) => (utf8DecodeF fuel r).map (fun cs => Char.ofNat cp :: cs)

/-- UTF-8 decoding of a byte string (`std::str::from_utf8` as an Option). -/
def utf8Decode (l : List Nat) : Option (List Char) := utf8DecodeF l.length l

/-- The JSON success envelope of the `/generate` endpoint. -/
structure GenerateResponse where
  address : List Char
  seed : List Char
deriving DecidableEq

/-- The JSON error envelope of the `/generate` endpoint. -/
structure ErrorResponse where
  error : List Char
deriving DecidableEq

/-- generate_vanity_address (server.rs lines 101-140): validate the base key
text, and either return the client error without grinding, or grind with the
fixed deployment parameters (owner = state token program, no prefix, suffix
"Loop", case-sensitive) and serialize the result. The grinder is passed as a
function argument because the loop itself is partial; the handler calls it
only in the success branch. -/
def generate_vanity_address (token_program_id : List Nat) (reqBase : List Char)
    (grinder : GrindArgs → List Nat × Pubkey) : Except ErrorResponse GenerateResponse :=
  match pubkeyTryFrom reqBase with
  | none => Except.error ⟨"Invalid base address".toList⟩
  | some key =>
    let args : GrindArgs := ⟨key, token_program_id, none, some "Loop".toList, false, none, 0⟩
    let r := grinder args
    Except.ok ⟨Pubkey.to_string r.2, (utf8Decode r.1).getD []⟩

/-- Sanity check against FIPS 180-4 test vector: sha256 of "abc". -/
theorem sha256_abc_vector :
    sha256 [97, 98, 99] = [0xba, 0x78, 0x16, 0xbf, 0x8f, 0x01, 0xcf, 0xea, 0x41, 0x41, 0x40,
      0xde, 0x5d, 0xae, 0x22, 0x23, 0xb0, 0x03, 0x61, 0xa3, 0x96, 0x17, 0x7a, 0x9c, 0xb4, 0x10,
      0xff, 0x61, 0xf2, 0x00, 0x15, 0xad] := by decide

/-- Sanity check: the all-zero key base58 encodes as 32 ones, under both
encoder models. -/
theorem encode_zero_key_vector :
    encode_32 (List.replicate 32 0) = List.replicate 32 '1' ∧
    bs58encode (List.replicate 32 0) = List.replicate 32 '1' := by decide

/-- The fuelled block processor is fuel-invariant once the fuel covers the
buffer length. -/
theorem processBlocksF_fuelInv : ∀ (f1 f2 : Nat) (h buf : List Nat),
    buf.length ≤ f1 → buf.length ≤ f2 → processBlocksF f1 h buf = processBlocksF f2 h buf := by
  intro f1
  induction f1 with
  | zero =>
    intro f2 h buf h1 h2
    have hb : buf = [] := List.length_eq_zero.mp (Nat.le_zero.mp h1)
    subst hb
    cases f2 with
    | zero => rfl
    | succ m => simp [processBlocksF]
  | succ n ih =>
    intro f2 h buf h1 h2
    cases f2 with
    | zero =>
      have hb : buf = [] := List.length_eq_zero.mp (Nat.le_zero.mp h2)
      subst hb
      simp [processBlocksF]
    | succ m =>
      simp only [processBlocksF]
      split
      · next h64 =>
        apply ih
        · simpa using by omega
        · simpa using by omega
      · rfl

/-- A buffer shorter than a block is left untouched. -/
theorem processBlocks_of_lt (h buf : List Nat) (hl : buf.length < 64) :
    processBlocks h buf = (h, buf) := by
  unfold processBlocks
  cases hn : buf.length with
  | zero => rfl
  | succ n =>
    simp only [processBlocksF]
    rw [if_neg (by omega)]

/-- A buffer holding at least one block is compressed one block at a time. -/
theorem processBlocks_step (h buf : List Nat) (h64 : 64 ≤ buf.length) :
    processBlocks h buf = processBlocks (sha256compress h (buf.take 64)) (buf.drop 64) := by
  unfold processBlocks
  obtain ⟨n, hn⟩ : ∃ n, buf.length = n + 1 := ⟨buf.length - 1, by omega⟩
  rw [hn]
  simp only [processBlocksF]
  rw [if_pos (by omega)]
  apply processBlocksF_fuelInv
  · simp; omega
  · simp

/-- Auxiliary induction for `processBlocks_append`, bounded by `n`. -/
theorem processBlocks_append_aux : ∀ (n : Nat) (x : List Nat), x.length ≤ n → ∀ (h b : List Nat),
    processBlocks h (x ++ b) = processBlocks (processBlocks h x).1 ((processBlocks h x).2 ++ b) := by
  intro n
  induction n with
  | zero =>
    intro x hx h b
    have hx0 : x = [] := List.length_eq_zero.mp (Nat.le_zero.mp hx)
    subst hx0
    rw [processBlocks_of_lt h [] (by simp)]
  | succ n ih =>
    intro x hx h b
    by_cases h64 : 64 ≤ x.length
    · rw [processBlocks_step h (x ++ b) (by simp; omega)]
      rw [List.take_append_of_le_length h64, List.drop_append_of_le_length h64]
      rw [processBlocks_step h x h64]
      exact ih (x.drop 64) (by simp; omega) _ b
    · rw [processBlocks_of_lt h x (by omega)]

/-- Processing `x ++ b` equals processing `x`, then continuing with `b`
appended to the leftover buffer. -/
theorem processBlocks_append (x : List Nat) (h b : List Nat) :
    processBlocks h (x ++ b) = processBlocks (processBlocks h x).1 ((processBlocks h x).2 ++ b) :=
  processBlocks_append_aux x.length x (Nat.le_refl _) h b

/-- Feeding data in two chain_update calls equals feeding the concatenation
in one call: the streaming context is a faithful accumulator. -/
theorem Sha256.chain_update_append (c : Sha256) (a b : List Nat) :
    (c.chain_update a).chain_update b = c.chain_update (a ++ b) := by
  simp only [Sha256.chain_update]
  rw [← List.append_assoc, processBlocks_append (c.buf ++ a)]
  simp [Nat.add_assoc]

/-- The per-trial digest computed from the primed context equals the one-shot
SHA-256 of the full concatenation. -/
theorem trialDigest_eq_sha256 (args : GrindArgs) (seed : List Nat) :
    trialDigest args seed = sha256 (args.base ++ seed ++ args.owner) := by
  unfold trialDigest sha256
  rw [Sha256.chain_update_append, Sha256.chain_update_append, List.append_assoc]

/-- grindStep unfolded through the match test. -/
theorem grindStep_eq (args : GrindArgs) (seed : List Nat) :
    grindStep args seed =
      if matchesCheck (encode_32 (trialDigest args seed)) (args.pfx.getD []) (args.sfx.getD [])
          args.case_insensitive
      then some (seed, Pubkey.new_from_array (trialDigest args seed)) else none := rfl

/-- A successful loop run names a matching trial: the returned seed is the
sampled seed of some trial index within the fuel window, and the step at that
trial produced exactly the returned pair. -/
theorem grindLoop_some_spec (args : GrindArgs) (idx : Nat → Nat) :
    ∀ (fuel i : Nat) (s : List Nat) (a : Pubkey),
      grindLoop args idx i fuel = some (s, a) →
      ∃ j, i ≤ j ∧ j < i + fuel ∧ s = sampleSeed idx j ∧
        grindStep args (sampleSeed idx j) = some (s, a) := by
  intro fuel
  induction fuel with
  | zero => intro i s a hrun; simp [grindLoop] at hrun
  | succ n ih =>
    intro i s a hrun
    simp only [grindLoop] at hrun
    cases hstep : grindStep args (sampleSeed idx i) with
    | some r =>
      rw [hstep] at hrun
      have hr : r = (s, a) := by simpa using hrun
      subst hr
      refine ⟨i, Nat.le_refl i, by omega, ?_, hstep⟩
      have := hstep
      rw [grindStep_eq] at this
      by_cases hm : matchesCheck (encode_32 (trialDigest args (sampleSeed idx i)))
          (args.pfx.getD []) (args.sfx.getD []) args.case_insensitive = true
      · rw [if_pos hm] at this
        have := Option.some.inj this
        exact congrArg Prod.fst this.symm
      · rw [if_neg hm] at this; cases this
    | none =>
      rw [hstep] at hrun
      obtain ⟨j, hj1, hj2, hj3, hj4⟩ := ih (i + 1) s a hrun
      exact ⟨j, by omega, by omega, hj3, hj4⟩

/-- The loop is still running iff every trial in the fuel window failed the
match test: the only exit is a match. -/
theorem grindLoop_none_iff (args : GrindArgs) (idx : Nat → Nat) :
    ∀ (fuel i : Nat),
      grindLoop args idx i fuel = none ↔
        ∀ j, i ≤ j → j < i + fuel → grindStep args (sampleSeed idx j) = none := by
  intro fuel
  induction fuel with
  | zero =>
    intro i
    constructor
    · intro _ j hj1 hj2; omega
    · intro _; rfl
  | succ n ih =>
    intro i
    simp only [grindLoop]
    cases hstep : grindStep args (sampleSeed idx i) with
    | some r =>
      constructor
      · intro hf; cases hf
      · intro hall
        have := hall i (Nat.le_refl i) (by omega)
        rw [hstep] at this; cases this
    | none =>
      rw [ih (i + 1)]
      constructor
      · intro hall j hj1 hj2
        by_cases hji : j = i
        · subst hji; exact hstep
        · exact hall j (by omega) (by omega)
      · intro hall j hj1 hj2
        exact hall j (by omega) (by omega)

/-- Matching bytes of a successful run: the address bytes are the trial
digest of the returned seed, and that digest passed the match test. -/
theorem grind_some_spec (args : GrindArgs) (idx : Nat → Nat) (fuel : Nat)
    (s : List Nat) (a : Pubkey) (h : grind_with_result args idx fuel = some (s, a)) :
    (∃ j, j < fuel ∧ s = sampleSeed idx j) ∧
    a.bytes = trialDigest args s ∧
    matchesCheck (encode_32 (trialDigest args s)) (args.pfx.getD []) (args.sfx.getD [])
      args.case_insensitive = true := by
  obtain ⟨j, hj1, hj2, hj3, hj4⟩ := grindLoop_some_spec args idx fuel 0 s a h
  rw [grindStep_eq] at hj4
  by_cases hm : matchesCheck (encode_32 (trialDigest args (sampleSeed idx j)))
      (args.pfx.getD []) (args.sfx.getD []) args.case_insensitive = true
  · rw [if_pos hm] at hj4
    have hpair := Option.some.inj hj4
    have hs : sampleSeed idx j = s := congrArg Prod.fst hpair
    have ha : Pubkey.new_from_array (trialDigest args (sampleSeed idx j)) = a :=
      congrArg Prod.snd hpair
    refine ⟨⟨j, by omega, hj3⟩, ?_, ?_⟩
    · rw [← ha, hs]; rfl
    · rw [← hs]; exact hm
  · rw [if_neg hm] at hj4; cases hj4

/-- Char.ofNat round-trips on valid code points. -/
theorem char_toNat_ofNat (n : Nat) (hv : Nat.isValidChar n) : (Char.ofNat n).toNat = n := by
  simp only [Char.ofNat, dif_pos hv, Char.ofNatAux, Char.toNat, UInt32.toNat]
  simp [BitVec.toNat_ofNat]

/-- ASCII lower-casing never yields an uppercase ASCII letter. -/
theorem toAsciiLowerChar_not_upper (x : Char) :
    ¬(65 ≤ (toAsciiLowerChar x).toNat ∧ (toAsciiLowerChar x).toNat ≤ 90) := by
  unfold toAsciiLowerChar
  split
  · next hx =>
    have hv : Nat.isValidChar (x.toNat + 32) := Or.inl (by omega)
    rw [char_toNat_ofNat (x.toNat + 32) hv]
    omega
  · next hx => exact hx

/-- No character of a lower-cased string is an uppercase ASCII letter. -/
theorem mem_toAsciiLower_not_upper (c : Char) (t : List Char) (hmem : c ∈ toAsciiLower t) :
    ¬(65 ≤ c.toNat ∧ c.toNat ≤ 90) := by
  obtain ⟨x, _, hx⟩ := List.mem_map.mp hmem
  rw [← hx]
  exact toAsciiLowerChar_not_upper x

/-- A pattern containing an uppercase ASCII letter is never a prefix of a
lower-cased string. -/
theorem upper_pfx_rejects (p t : List Char) (c : Char) (hc : c ∈ p)
    (hup : 65 ≤ c.toNat ∧ c.toNat ≤ 90) : p.isPrefixOf (toAsciiLower t) = false := by
  by_cases hpre : p.isPrefixOf (toAsciiLower t) = true
  · exfalso
    have hsub := (List.isPrefixOf_iff_prefix.mp hpre).subset
    exact mem_toAsciiLower_not_upper c t (hsub hc) hup
  · exact Bool.eq_false_iff.mpr hpre

/-- A pattern containing an uppercase ASCII letter is never a suffix of a
lower-cased string. -/
theorem upper_sfx_rejects (s t : List Char) (c : Char) (hc : c ∈ s)
    (hup : 65 ≤ c.toNat ∧ c.toNat ≤ 90) : s.isSuffixOf (toAsciiLower t) = false := by
  by_cases hsuf : s.isSuffixOf (toAsciiLower t) = true
  · exfalso
    have hsub := (List.isSuffixOf_iff_suffix.mp hsuf).subset
    exact mem_toAsciiLower_not_upper c t (hsub hc) hup
  · exact Bool.eq_false_iff.mpr hsuf

/-- Under case-insensitive comparison, a pattern with an uppercase ASCII
letter in the prefix or the suffix fails the match test on every text. -/
theorem matchesCheck_upper_ci_false (t p s : List Char) (c : Char)
    (hc : c ∈ p ∨ c ∈ s) (hup : 65 ≤ c.toNat ∧ c.toNat ≤ 90) :
    matchesCheck t p s true = false := by
  unfold matchesCheck
  simp only [if_pos]
  cases hc with
  | inl hcp => rw [upper_pfx_rejects p t c hcp hup]; rfl
  | inr hcs => rw [upper_sfx_rejects s t c hcs hup, Bool.and_false]

/-- Under case-insensitive comparison with an uppercase letter in a pattern,
every grind run is still searching, whatever the fuel: the call never
returns. -/
theorem grind_upper_ci_none (args : GrindArgs) (idx : Nat → Nat) (fuel : Nat) (c : Char)
    (hci : args.case_insensitive = true)
    (hc : c ∈ args.pfx.getD [] ∨ c ∈ args.sfx.getD [])
    (hup : 65 ≤ c.toNat ∧ c.toNat ≤ 90) :
    grind_with_result args idx fuel = none := by
  unfold grind_with_result
  rw [grindLoop_none_iff]
  intro j hj1 hj2
  rw [grindStep_eq, hci,
    matchesCheck_upper_ci_false (encode_32 (trialDigest args (sampleSeed idx j)))
      (args.pfx.getD []) (args.sfx.getD []) c hc hup]
  rfl

/-- The empty pattern matches every text on both sides. -/
theorem matchesCheck_nil_nil (t : List Char) (ci : Bool) :
    matchesCheck t [] [] ci = true := by
  unfold matchesCheck
  simp [List.isPrefixOf_iff_prefix, List.isSuffixOf_iff_suffix]

/-- The fuelled base-58 digit extractor is fuel-invariant once the fuel
covers `n`. -/
theorem natB58DigitsF_fuelInv : ∀ (f1 f2 n : Nat),
    n ≤ f1 → n ≤ f2 → natB58DigitsF f1 n = natB58DigitsF f2 n := by
  intro f1
  induction f1 with
  | zero =>
    intro f2 n h1 h2
    have hn : n = 0 := by omega
    subst hn
    cases f2 <;> simp [natB58DigitsF]
  | succ m ih =>
    intro f2 n h1 h2
    cases f2 with
    | zero =>
      have hn : n = 0 := by omega
      subst hn
      simp [natB58DigitsF]
    | succ k =>
      simp only [natB58DigitsF]
      by_cases hn : n = 0
      · simp [hn]
      · rw [if_neg hn, if_neg hn]
        congr 1
        have hdiv : n / 58 < n := Nat.div_lt_self (Nat.pos_of_ne_zero hn) (by omega)
        exact ih k (n / 58) (by omega) (by omega)

/-- Unfolding equation of the digit extractor on a positive argument. -/
theorem natB58Digits_succ (n : Nat) (hn : n ≠ 0) :
    natB58Digits n = n % 58 :: natB58Digits (n / 58) := by
  unfold natB58Digits
  cases n with
  | zero => exact absurd rfl hn
  | succ m =>
    simp only [natB58DigitsF, if_neg hn]
    congr 1
    have hdiv : (m + 1) / 58 < m + 1 := Nat.div_lt_self (Nat.succ_pos m) (by omega)
    exact natB58DigitsF_fuelInv m ((m + 1) / 58) ((m + 1) / 58) (by omega) (Nat.le_refl _)

/-- The divmod digit extractor computes the canonical base-58 digits. -/
theorem natB58Digits_eq_digits (n : Nat) : natB58Digits n = Nat.digits 58 n := by
  induction n using Nat.strong_induction_on with
  | _ n ih =>
    by_cases hn : n = 0
    · subst hn; simp [natB58Digits, natB58DigitsF]
    · rw [natB58Digits_succ n hn,
        Nat.digits_def' (by norm_num : (1:Nat) < 58) (Nat.pos_of_ne_zero hn)]
      congr 1
      exact ih (n / 58) (Nat.div_lt_self (Nat.pos_of_ne_zero hn) (by omega))

/-- Carry propagation preserves the digit count. -/
theorem carryProp_length : ∀ (ds : List Nat) (c : Nat), (carryProp ds c).1.length = ds.length := by
  intro ds
  induction ds with
  | nil => intro c; rfl
  | cons d ds ih => intro c; simp [carryProp, ih]

/-- Carry propagation produces base-58 digits. -/
theorem carryProp_lt : ∀ (ds : List Nat) (c : Nat), ∀ x ∈ (carryProp ds c).1, x < 58 := by
  intro ds
  induction ds with
  | nil => intro c x hx; simp [carryProp] at hx
  | cons d ds ih =>
    intro c x hx
    simp only [carryProp, List.mem_cons] at hx
    rcases hx with hx | hx
    · subst hx; exact Nat.mod_lt _ (by omega)
    · exact ih ((c + d * 256) / 58) x hx

/-- Value equation of carry propagation: the updated digits plus the final
carry at weight `58 ^ length` represent `c + 256 * value`. -/
theorem carryProp_val : ∀ (ds : List Nat) (c : Nat),
    Nat.ofDigits 58 (carryProp ds c).1 + 58 ^ ds.length * (carryProp ds c).2
      = c + 256 * Nat.ofDigits 58 ds := by
  intro ds
  induction ds with
  | nil => intro c; simp [carryProp, Nat.ofDigits_nil]
  | cons d ds ih =>
    intro c
    have h1 := ih ((c + d * 256) / 58)
    have hdm := Nat.div_add_mod (c + d * 256) 58
    simp only [carryProp, Nat.ofDigits_cons, List.length_cons, Nat.cast_id]
    have hp : (58 : Nat) ^ (ds.length + 1) * (carryProp ds ((c + d * 256) / 58)).2
        = 58 * (58 ^ ds.length * (carryProp ds ((c + d * 256) / 58)).2) := by ring
    rw [hp]
    omega

/-- One encoder step on canonical digits: pushing byte `b` onto the digits of
`v` yields the digits of `v * 256 + b`. -/
theorem pushDigits_spec (v b : Nat) :
    pushDigits (Nat.digits 58 v) b = Nat.digits 58 (v * 256 + b) := by
  have hres : pushDigits (Nat.digits 58 v) b
      = (carryProp (Nat.digits 58 v) b).1 ++ natB58Digits (carryProp (Nat.digits 58 v) b).2 := rfl
  have hlen := carryProp_length (Nat.digits 58 v) b
  have hval := carryProp_val (Nat.digits 58 v) b
  rw [Nat.ofDigits_digits] at hval
  rw [hres, natB58Digits_eq_digits]
  have hlt : ∀ x ∈ (carryProp (Nat.digits 58 v) b).1
      ++ Nat.digits 58 (carryProp (Nat.digits 58 v) b).2, x < 58 := by
    intro x hx
    rcases List.mem_append.mp hx with hx | hx
    · exact carryProp_lt (Nat.digits 58 v) b x hx
    · exact Nat.digits_lt_base (by norm_num) hx
  have hofall : Nat.ofDigits 58 ((carryProp (Nat.digits 58 v) b).1
      ++ Nat.digits 58 (carryProp (Nat.digits 58 v) b).2) = v * 256 + b := by
    rw [Nat.ofDigits_append, hlen, Nat.ofDigits_digits]
    omega
  have hcanon : ∀ (hne : (carryProp (Nat.digits 58 v) b).1
      ++ Nat.digits 58 (carryProp (Nat.digits 58 v) b).2 ≠ []),
      ((carryProp (Nat.digits 58 v) b).1
        ++ Nat.digits 58 (carryProp (Nat.digits 58 v) b).2).getLast hne ≠ 0 := by
    intro hne
    by_cases hr2 : (carryProp (Nat.digits 58 v) b).2 = 0
    · by_cases hv : v = 0
      · exfalso
        apply hne
        have hds0 : Nat.digits 58 v = [] := by rw [hv]; simp
        have hcp : carryProp (Nat.digits 58 v) b = ([], b) := by rw [hds0]; rfl
        have hb0 : b = 0 := by
          have : (carryProp (Nat.digits 58 v) b).2 = b := by rw [hcp]
          omega
        rw [hcp, hb0]
        simp
      · exfalso
        have hbound := Nat.ofDigits_lt_base_pow_length
          (by norm_num : (1:Nat) < 58) (carryProp_lt (Nat.digits 58 v) b)
        have hlow := Nat.base_pow_length_digits_le 58 v (by norm_num) hv
        rw [hlen] at hbound
        rw [hr2, Nat.mul_zero, Nat.add_zero] at hval
        omega
    · have hne2 : Nat.digits 58 (carryProp (Nat.digits 58 v) b).2 ≠ [] :=
        Nat.digits_ne_nil_iff_ne_zero.mpr hr2
      rw [List.getLast_append' _ _ hne2]
      exact Nat.getLast_digit_ne_zero 58 hr2
  have huniq := Nat.digits_ofDigits 58 (by norm_num) _ hlt hcanon
  rw [hofall] at huniq
  exact huniq.symm

/-- Folding the encoder over the input from canonical digits tracks the
big-endian value fold. -/
theorem bs58Digits_aux : ∀ (input : List Nat) (v : Nat),
    List.foldl pushDigits (Nat.digits 58 v) input
      = Nat.digits 58 (List.foldl (fun acc b => acc * 256 + b) v input) := by
  intro input
  induction input with
  | nil => intro v; rfl
  | cons b bs ih =>
    intro v
    simp only [List.foldl]
    rw [pushDigits_spec v b]
    exact ih (v * 256 + b)

/-- The `bs58` digit accumulator computes the canonical base-58 digits of the
big-endian value of the input. -/
theorem bs58Digits_eq (input : List Nat) :
    bs58Digits input = Nat.digits 58 (bytesBEToNat input) := by
  unfold bs58Digits bytesBEToNat
  have h := bs58Digits_aux input 0
  simpa using h

/-- The two base58 encoder models agree on every byte string. -/
theorem encode_32_eq_bs58encode (b : List Nat) : encode_32 b = bs58encode b := by
  unfold encode_32 bs58encode
  rw [bs58Digits_eq, ← natB58Digits_eq_digits]
  rw [List.map_append, List.reverse_append, List.map_replicate, List.reverse_replicate]
  have h1 : B58_ALPHABET.getD 0 '1' = '1' := rfl
  rw [h1]

/-- An ASCII lead byte decodes to itself, consuming nothing further. -/
theorem utf8Step_ascii (b : Nat) (rest : List Nat) (hb : b < 128) :
    utf8Step b rest = some (b, rest) := by
  unfold utf8Step
  rw [if_pos hb]

/-- ASCII byte strings decode under UTF-8 to their code points. -/
theorem utf8Decode_ascii : ∀ (l : List Nat), (∀ b ∈ l, b < 128) →
    utf8Decode l = some (l.map Char.ofNat) := by
  intro l
  induction l with
  | nil => intro _; rfl
  | cons b bs ih =>
    intro hall
    have hb : b < 128 := hall b (List.mem_cons_self b bs)
    have hrec := ih (fun x hx => hall x (List.mem_cons_of_mem b hx))
    show utf8DecodeF (bs.length + 1) (b :: bs) = some (List.map Char.ofNat (b :: bs))
    rw [utf8DecodeF, utf8Step_ascii b bs hb]
    show Option.map (fun cs => Char.ofNat b :: cs) (utf8DecodeF bs.length bs)
      = some (List.map Char.ofNat (b :: bs))
    rw [show utf8DecodeF bs.length bs = utf8Decode bs from rfl, hrec]
    rfl

/-- The alphanumeric charset holds 62 bytes. -/
theorem ALNUM_BYTES_length : ALNUM_BYTES.length = 62 := by decide

/-- Every trial seed is 16 bytes long. -/
theorem sampleSeed_length (idx : Nat → Nat) (i : Nat) : (sampleSeed idx i).length = 16 := by
  unfold sampleSeed
  rw [List.length_map, List.length_range]

/-- Every byte of a trial seed comes from the alphanumeric charset, provided
the index oracle stays below 62 as rejection sampling guarantees. -/
theorem sampleSeed_mem (idx : Nat → Nat) (i : Nat) (hidx : ∀ n, idx n < 62) :
    ∀ b ∈ sampleSeed idx i, b ∈ ALNUM_BYTES := by
  intro b hb
  simp only [sampleSeed, List.mem_map] at hb
  obtain ⟨k, _, hbk⟩ := hb
  rw [← hbk]
  unfold sampleAlphanumeric
  have hlt : idx (16 * i + k) < ALNUM_BYTES.length := by
    rw [ALNUM_BYTES_length]; exact hidx (16 * i + k)
  rw [List.getD_eq_getElem ALNUM_BYTES 65 hlt]
  exact List.getElem_mem hlt

/-- C3: extending a clone of the context primed once with the base bytes by
the seed and then the owner bytes and finalizing yields exactly the 32-byte
SHA-256 digest of `base ++ seed ++ owner` computed from scratch; the primed
context is a pure value, so it is unchanged across trials by construction. -/
theorem sha256_priming_refines_full_hash (base seed owner : List Nat) :
    (((Sha256.new.chain_update base).chain_update seed).chain_update owner).finalize
      = sha256 (base ++ seed ++ owner) := by
  unfold sha256
  rw [Sha256.chain_update_append, Sha256.chain_update_append, List.append_assoc]

/-- C1: whenever grind_with_result returns a pair, the address's raw bytes
are the SHA-256 digest of base, then the 16 seed bytes, then owner (no
truncation or further derivation), and the base58 text of the address
(ASCII-lower-cased first when case-insensitive) starts with the prefix and
ends with the suffix, absent patterns reading as the empty string. -/
theorem grind_result_digest_and_pattern (args : GrindArgs) (idx : Nat → Nat) (fuel : Nat)
    (seed : List Nat) (address : Pubkey)
    (h : grind_with_result args idx fuel = some (seed, address)) :
    address.bytes = sha256 (args.base ++ seed ++ args.owner) ∧
    (args.pfx.getD []) <+:
      (if args.case_insensitive then toAsciiLower (encode_32 address.bytes)
       else encode_32 address.bytes) ∧
    (args.sfx.getD []) <:+
      (if args.case_insensitive then toAsciiLower (encode_32 address.bytes)
       else encode_32 address.bytes) := by
  obtain ⟨_, hbytes, hmatch⟩ := grind_some_spec args idx fuel seed address h
  simp only [matchesCheck, Bool.and_eq_true] at hmatch
  refine ⟨by rw [hbytes, trialDigest_eq_sha256], ?_, ?_⟩
  · rw [hbytes]
    exact List.isPrefixOf_iff_prefix.mp hmatch.1
  · rw [hbytes]
    exact List.isSuffixOf_iff_suffix.mp hmatch.2

/-- Witness for C1: a concrete one-trial run with empty patterns, whose
returned address bytes are checked against the from-scratch digest. -/
theorem grind_result_digest_and_pattern_witness :
    Pubkey.bytes ⟨[173, 150, 21, 172, 43, 219, 161, 35, 121, 178, 104, 76, 206, 28, 6, 134,
        202, 241, 207, 37, 11, 150, 159, 171, 24, 49, 248, 218, 144, 198, 43, 130]⟩
      = sha256 (List.replicate 32 0 ++ List.replicate 16 65 ++ List.replicate 32 0) ∧
    ([] : List Char) <+: encode_32 (Pubkey.bytes ⟨[173, 150, 21, 172, 43, 219, 161, 35, 121,
        178, 104, 76, 206, 28, 6, 134, 202, 241, 207, 37, 11, 150, 159, 171, 24, 49, 248, 218,
        144, 198, 43, 130]⟩) ∧
    ([] : List Char) <:+ encode_32 (Pubkey.bytes ⟨[173, 150, 21, 172, 43, 219, 161, 35, 121,
        178, 104, 76, 206, 28, 6, 134, 202, 241, 207, 37, 11, 150, 159, 171, 24, 49, 248, 218,
        144, 198, 43, 130]⟩) :=
  grind_result_digest_and_pattern
    ⟨List.replicate 32 0, List.replicate 32 0, none, none, false, none, 0⟩
    (fun _ => 0) 1 (List.replicate 16 65)
    ⟨[173, 150, 21, 172, 43, 219, 161, 35, 121, 178, 104, 76, 206, 28, 6, 134,
      202, 241, 207, 37, 11, 150, 159, 171, 24, 49, 248, 218, 144, 198, 43, 130]⟩
    (by decide)

/-- C2 (amended): the loop has no timeout, iteration cap or cancellation and
its only exit is a match: within any fuel window it returns iff some trial
in the window matches, and anything it returns satisfied the match test.
Termination itself is not guaranteed: see the counterexample with an
unsatisfiable pattern. -/
theorem grind_exits_only_by_match (args : GrindArgs) (idx : Nat → Nat) (fuel : Nat) :
    ((grind_with_result args idx fuel).isSome = true
      ↔ ∃ i, i < fuel ∧ (grindStep args (sampleSeed idx i)).isSome = true) ∧
    (∀ s a, grind_with_result args idx fuel = some (s, a) →
      matchesCheck (encode_32 a.bytes) (args.pfx.getD []) (args.sfx.getD [])
        args.case_insensitive = true) := by
  constructor
  · constructor
    · intro hs
      obtain ⟨r, hr⟩ := Option.isSome_iff_exists.mp hs
      obtain ⟨s, a⟩ := r
      obtain ⟨j, hj1, hj2, _, hj4⟩ := grindLoop_some_spec args idx fuel 0 s a hr
      refine ⟨j, by omega, ?_⟩
      rw [hj4]
      rfl
    · rintro ⟨i, hi, hstep⟩
      cases hgrind : grind_with_result args idx fuel with
      | some r => rfl
      | none =>
        exfalso
        have hnone := (grindLoop_none_iff args idx fuel 0).mp hgrind i (by omega) (by omega)
        rw [hnone] at hstep
        cases hstep
  · intro s a h
    obtain ⟨_, hbytes, hmatch⟩ := grind_some_spec args idx fuel s a h
    rw [hbytes]
    exact hmatch

/-- Witness for C2: the returned pair of a concrete run satisfies the match
test. -/
theorem grind_exits_only_by_match_witness :
    matchesCheck (encode_32 (Pubkey.bytes ⟨[173, 150, 21, 172, 43, 219, 161, 35, 121, 178,
      104, 76, 206, 28, 6, 134, 202, 241, 207, 37, 11, 150, 159, 171, 24, 49, 248, 218, 144,
      198, 43, 130]⟩)) [] [] false = true :=
  (grind_exits_only_by_match
    ⟨List.replicate 32 0, List.replicate 32 0, none, none, false, none, 0⟩
    (fun _ => 0) 1).2 (List.replicate 16 65)
    ⟨[173, 150, 21, 172, 43, 219, 161, 35, 121, 178, 104, 76, 206, 28, 6, 134,
      202, 241, 207, 37, 11, 150, 159, 171, 24, 49, 248, 218, 144, 198, 43, 130]⟩
    (by decide)

/-- C2 counterexample: the claim "the grind loop always terminates with a
match" is false at a concrete input: with case_insensitive set and prefix
"A" (an uppercase letter can never appear in the lower-cased candidate), the
loop never returns, whatever the fuel. -/
theorem grind_uppercase_prefix_never_returns :
    ¬ ∃ (fuel : Nat) (r : List Nat × Pubkey),
      grind_with_result ⟨[], [], some ['A'], none, true, none, 0⟩ (fun _ => 0) fuel
        = some r := by
  rintro ⟨fuel, r, hr⟩
  rw [grind_upper_ci_none ⟨[], [], some ['A'], none, true, none, 0⟩ (fun _ => 0) fuel 'A'
    rfl (Or.inl (by decide)) (by decide)] at hr
  cases hr

/-- C4: the match test holds iff the (possibly folded) text starts with the
prefix AND ends with the suffix; with both patterns empty it accepts every
text, and a grind call whose request carries no prefix and no suffix
returns on the very first trial. -/
theorem match_predicate_conjunction (t p s : List Char) (ci : Bool) :
    (matchesCheck t p s ci = true ↔
      (p <+: (if ci then toAsciiLower t else t)) ∧ (s <:+ (if ci then toAsciiLower t else t))) ∧
    matchesCheck t [] [] ci = true ∧
    (∀ (args : GrindArgs) (idx : Nat → Nat), args.pfx = none → args.sfx = none →
      (grind_with_result args idx 1).isSome = true) := by
  refine ⟨?_, matchesCheck_nil_nil t ci, ?_⟩
  · simp only [matchesCheck, Bool.and_eq_true]
    exact and_congr List.isPrefixOf_iff_prefix List.isSuffixOf_iff_suffix
  · intro args idx hp hs
    have hstep : grindStep args (sampleSeed idx 0)
        = some (sampleSeed idx 0, Pubkey.new_from_array (trialDigest args (sampleSeed idx 0))) := by
      rw [grindStep_eq, hp, hs]
      simp [matchesCheck_nil_nil]
    show (grindLoop args idx 0 1).isSome = true
    rw [grindLoop, hstep]
    rfl

/-- Witness for C4: a request with both patterns absent is answered within
one trial. -/
theorem match_predicate_conjunction_witness :
    (grind_with_result ⟨List.replicate 32 0, List.replicate 32 0, none, none, false, none, 0⟩
      (fun _ => 0) 1).isSome = true :=
  (match_predicate_conjunction [] [] [] false).2.2
    ⟨List.replicate 32 0, List.replicate 32 0, none, none, false, none, 0⟩
    (fun _ => 0) rfl rfl

/-- C5: only the comparison is case-folded: for candidate "ABCxyz" and
prefix "abc", the test passes when case-insensitive and fails when
case-sensitive; and whatever the flag, the address a grind run stores and
returns is built from the original digest bytes, not from the folded text. -/
theorem case_insensitive_folds_only_comparison :
    matchesCheck "ABCxyz".toList "abc".toList [] true = true ∧
    matchesCheck "ABCxyz".toList "abc".toList [] false = false ∧
    (∀ (args : GrindArgs) (idx : Nat → Nat) (fuel : Nat) (s : List Nat) (a : Pubkey),
      grind_with_result args idx fuel = some (s, a) →
      a.bytes = sha256 (args.base ++ s ++ args.owner)) := by
  refine ⟨by decide, by decide, ?_⟩
  intro args idx fuel s a h
  obtain ⟨_, hbytes, _⟩ := grind_some_spec args idx fuel s a h
  rw [hbytes, trialDigest_eq_sha256]

/-- Witness for C5: the address of a concrete run carries the raw digest
bytes. -/
theorem case_insensitive_folds_only_comparison_witness :
    Pubkey.bytes ⟨[177, 9, 75, 125, 46, 232, 81, 121, 145, 9, 1, 205, 188, 44, 105, 143, 45,
        149, 20, 242, 185, 18, 182, 183, 225, 247, 187, 86, 114, 230, 77, 101]⟩
      = sha256 (List.replicate 32 0 ++ List.replicate 16 66 ++ List.replicate 32 0) :=
  case_insensitive_folds_only_comparison.2.2
    ⟨List.replicate 32 0, List.replicate 32 0, none, none, false, none, 0⟩
    (fun _ => 1) 1 (List.replicate 16 66)
    ⟨[177, 9, 75, 125, 46, 232, 81, 121, 145, 9, 1, 205, 188, 44, 105, 143, 45,
      149, 20, 242, 185, 18, 182, 183, 225, 247, 187, 86, 114, 230, 77, 101]⟩
    (by decide)

/-- C6: every trial seed is exactly 16 bytes, each drawn from the 62-byte
alphanumeric charset; the charset has 62 distinct entries, so a uniform
index draws each character with equal probability, and each of the 16
positions consumes its own fresh element of the random stream; the seed a
run returns obeys the same invariant. -/
theorem seed_alphabet_invariant (idx : Nat → Nat) (i : Nat) (hidx : ∀ n, idx n < 62) :
    (sampleSeed idx i).length = 16 ∧
    (∀ b ∈ sampleSeed idx i, b ∈ ALNUM_BYTES) ∧
    ALNUM_BYTES.length = 62 ∧ ALNUM_BYTES.Nodup ∧
    (∀ (args : GrindArgs) (fuel : Nat) (s : List Nat) (a : Pubkey),
      grind_with_result args idx fuel = some (s, a) →
      s.length = 16 ∧ ∀ b ∈ s, b ∈ ALNUM_BYTES) := by
  refine ⟨sampleSeed_length idx i, sampleSeed_mem idx i hidx, ALNUM_BYTES_length,
    by decide, ?_⟩
  intro args fuel s a h
  obtain ⟨⟨j, _, hsj⟩, _, _⟩ := grind_some_spec args idx fuel s a h
  rw [hsj]
  exact ⟨sampleSeed_length idx j, sampleSeed_mem idx j hidx⟩

/-- Witness for C6: a concrete trial seed and a concrete returned seed are 16
alphanumeric bytes. -/
theorem seed_alphabet_invariant_witness :
    (sampleSeed (fun _ => 0) 0).length = 16 ∧
    ((List.replicate 16 65 : List Nat).length = 16 ∧
      ∀ b ∈ (List.replicate 16 65 : List Nat), b ∈ ALNUM_BYTES) :=
  ⟨(seed_alphabet_invariant (fun _ => 0) 0 (fun _ => (by decide : (0:Nat) < 62))).1,
   (seed_alphabet_invariant (fun _ => 0) 0 (fun _ => (by decide : (0:Nat) < 62))).2.2.2.2
     ⟨List.replicate 32 0, List.replicate 32 0, none, none, false, none, 0⟩ 1
     (List.replicate 16 65)
     ⟨[173, 150, 21, 172, 43, 219, 161, 35, 121, 178, 104, 76, 206, 28, 6, 134,
       202, 241, 207, 37, 11, 150, 159, 171, 24, 49, 248, 218, 144, 198, 43, 130]⟩
     (by decide)⟩

/-- C7: the request handler grinds iff the base key text decodes as a valid
32-byte key: on failure it answers the InvalidBaseKey client error for every
possible grinder (so the grinder is never consulted); on success it hands
the decoded key with the fixed deployment parameters to the grinder and
serializes the grinder's pair. -/
theorem handler_validates_base_key (token_program_id : List Nat) (reqBase : List Char) :
    (pubkeyTryFrom reqBase = none →
      ∀ grinder : GrindArgs → List Nat × Pubkey,
        generate_vanity_address token_program_id reqBase grinder
          = Except.error ⟨"Invalid base address".toList⟩) ∧
    (∀ key, pubkeyTryFrom reqBase = some key →
      ∀ grinder : GrindArgs → List Nat × Pubkey,
        generate_vanity_address token_program_id reqBase grinder
          = Except.ok ⟨Pubkey.to_string
              (grinder ⟨key, token_program_id, none, some "Loop".toList, false, none, 0⟩).2,
            (utf8Decode (grinder ⟨key, token_program_id, none, some "Loop".toList,
              false, none, 0⟩).1).getD []⟩) := by
  constructor
  · intro hdec grinder
    unfold generate_vanity_address
    rw [hdec]
  · intro key hdec grinder
    unfold generate_vanity_address
    rw [hdec]

/-- Witness for C7: the empty request string fails decoding and yields the
client error, with a dummy grinder that is demonstrably never consulted. -/
theorem handler_validates_base_key_witness :
    generate_vanity_address [] [] (fun _ => ([], ⟨[]⟩))
      = Except.error ⟨"Invalid base address".toList⟩ :=
  (handler_validates_base_key [] []).1 (by decide) (fun _ => ([], ⟨[]⟩))

/-- C8: the base58 text the match predicate inspects (`fd_bs58::encode_32`
of the digest) is exactly the text `Pubkey`'s `to_string` serializes into
the response for the same 32 bytes: the client receives the text that
matched. -/
theorem encode_32_eq_pubkey_to_string (b : List Nat) :
    encode_32 b = Pubkey.to_string (Pubkey.new_from_array b) := by
  unfold Pubkey.to_string Pubkey.new_from_array
  exact encode_32_eq_bs58encode b

/-- C9: the seed bytes of any returned pair are ASCII alphanumeric, hence
valid UTF-8: `from_utf8(...).unwrap()` at the end of grind_with_result
cannot hit its error branch. -/
theorem winning_seed_utf8_never_panics (args : GrindArgs) (idx : Nat → Nat) (fuel : Nat)
    (s : List Nat) (a : Pubkey) (hidx : ∀ n, idx n < 62)
    (h : grind_with_result args idx fuel = some (s, a)) :
    utf8Decode s = some (s.map Char.ofNat) := by
  obtain ⟨⟨j, _, hsj⟩, _, _⟩ := grind_some_spec args idx fuel s a h
  apply utf8Decode_ascii
  intro b hb
  have hmem : b ∈ ALNUM_BYTES := by
    rw [hsj] at hb
    exact sampleSeed_mem idx j hidx b hb
  have hforall : ∀ x ∈ ALNUM_BYTES, x < 128 := by decide
  exact hforall b hmem

/-- Witness for C9: the seed of a concrete run decodes as UTF-8. -/
theorem winning_seed_utf8_never_panics_witness :
    utf8Decode (List.replicate 16 67) = some ((List.replicate 16 67).map Char.ofNat) :=
  winning_seed_utf8_never_panics
    ⟨List.replicate 32 0, List.replicate 32 0, none, none, false, none, 0⟩
    (fun _ => 2) 1 (List.replicate 16 67)
    ⟨[219, 129, 11, 86, 14, 180, 207, 134, 243, 54, 20, 210, 145, 172, 130, 204, 113, 54,
      212, 24, 7, 133, 2, 180, 143, 4, 176, 149, 180, 228, 60, 119]⟩
    (fun _ => (by decide : (2:Nat) < 62)) (by decide)

/-- C10: lower-casing is applied to the candidate only, never to the
patterns, so under case-insensitive matching a prefix or suffix holding an
uppercase ASCII letter rejects every candidate text, and such a grind call
never returns, whatever the fuel. -/
theorem uppercase_pattern_with_ci_never_matches (args : GrindArgs) (idx : Nat → Nat)
    (fuel : Nat) (c : Char)
    (hci : args.case_insensitive = true)
    (hc : c ∈ args.pfx.getD [] ∨ c ∈ args.sfx.getD [])
    (hup : 65 ≤ c.toNat ∧ c.toNat ≤ 90) :
    (∀ t, matchesCheck t (args.pfx.getD []) (args.sfx.getD []) true = false) ∧
    grind_with_result args idx fuel = none :=
  ⟨fun t => matchesCheck_upper_ci_false t (args.pfx.getD []) (args.sfx.getD []) c hc hup,
   grind_upper_ci_none args idx fuel c hci hc hup⟩

/-- Witness for C10: the pattern "A" rejects the candidate "Abc" under
case-insensitive matching, and a concrete two-trial run finds nothing. -/
theorem uppercase_pattern_with_ci_never_matches_witness :
    matchesCheck "Abc".toList ['A'] [] true = false ∧
    grind_with_result ⟨[], [], some ['A'], none, true, none, 0⟩ (fun _ => 0) 2 = none :=
  ⟨(uppercase_pattern_with_ci_never_matches ⟨[], [], some ['A'], none, true, none, 0⟩
      (fun _ => 0) 2 'A' rfl (Or.inl (by decide)) (by decide)).1 "Abc".toList,
   (uppercase_pattern_with_ci_never_matches ⟨[], [], some ['A'], none, true, none, 0⟩
      (fun _ => 0) 2 'A' rfl (Or.inl (by decide)) (by decide)).2⟩
